import Mathlib

/-!
Verification of the fuzzy string-matching orchestration layer
(`crates/fuzzy/src/strings.rs`): the data model (`StringMatchCandidate`,
`StringMatch`), the ordering on match results, match-span reconstruction
(`StringMatch::ranges` / `char_len_at_index`), and the two entry points
(`match_strings`, `match_strings_synchronously`).

Modelling conventions:
* Rust `String` is modelled as `List Char`; byte offsets are recovered via
  `Char.utf8Size`, so `char_len_at_index` has exactly the semantics of
  `str::get(ix..)` followed by taking the first char's UTF-8 length.
* `f64` scores are modelled as `Option ℚ`: `some q` is an ordinary
  (comparable) score, `none` models a value, such as NaN, on which
  `partial_cmp` returns `None`.  This keeps the partiality of the source's
  float comparison observable while staying executable.
* The character-level scorer (`Matcher::match_candidates`,
  `crates/fuzzy/src/matcher.rs`) and the merge helper (`util::extend_sorted`)
  are not part of the sources under verification; they are modelled from the
  spec (see the doc comments of `scorerRun` and `extend_sorted`).  The scorer
  is abstracted as a deterministic per-candidate scoring function `σ`; the
  cooperative cancellation flag is modelled as never set (its only effect is
  inside the external scorer).
-/

/-- Candidate record from `strings.rs` (`StringMatchCandidate`): a caller
assigned id and the candidate text.  The `char_bag` fingerprint is consumed
only by the external scorer, whose admissibility test is folded into the
scoring function `σ` below, so it is not materialized here. -/
structure StringMatchCandidate where
  id : Nat
  string : List Char
  deriving DecidableEq, Repr

/-- Match result record from `strings.rs` (`StringMatch`). -/
structure StringMatch where
  candidate_id : Nat
  score : Option ℚ
  positions : List Nat
  string : List Char
  deriving DecidableEq, Repr

/-- Rust's `usize::cmp`. -/
def cmpN (a b : Nat) : Ordering :=
  if a < b then .lt else if b < a then .gt else .eq

/-- Comparison of two rationals, the total-order part of `f64::partial_cmp`. -/
def cmpQ (a b : ℚ) : Ordering :=
  if a < b then .lt else if b < a then .gt else .eq

/-- Model of `f64::partial_cmp` on scores: comparable scores compare as
rationals; a `none` score (NaN-like) is incomparable to everything. -/
def scoreCmp : Option ℚ → Option ℚ → Option Ordering
  | some a, some b => some (cmpQ a b)
  | _, _ => none

/-- The `Ord for StringMatch` implementation in `strings.rs`:
`self.score.partial_cmp(&other.score).unwrap_or(Equal)
  .then_with(|| self.candidate_id.cmp(&other.candidate_id))`. -/
def StringMatch.cmp (a b : StringMatch) : Ordering :=
  ((scoreCmp a.score b.score).getD Ordering.eq).then (cmpN a.candidate_id b.candidate_id)

/-- Byte length of the UTF-8 character starting at byte offset `ix`, or
`none` if `ix` is out of range or not on a character boundary; this is
`StringMatch::char_len_at_index` in `strings.rs`
(`self.string.get(ix..).and_then(|s| s.chars().next().map(|c| c.len_utf8()))`). -/
def char_len_at_index : List Char → Nat → Option Nat
  | [], _ => none
  | c :: rest, ix =>
    if ix = 0 then some c.utf8Size
    else if ix < c.utf8Size then none
    else char_len_at_index rest (ix - c.utf8Size)

/-- Total UTF-8 byte length of the text. -/
def utf8Len (s : List Char) : Nat := (s.map Char.utf8Size).sum

/-- Inner state of the `ranges` iterator of `strings.rs` while a range
`start..e` is open: on `e = p` the run is extended (a corrupted offset there
ends the iterator, discarding the open range); otherwise the open range is
emitted and a new one started at `p` (a corrupted `p` ends the iterator
after that emission).  This is the observable output sequence of the
`iter::from_fn` closure under the standard iterator protocol, where the
first `None` terminates consumption. -/
def rangesLoop (s : List Char) : Nat → Nat → List Nat → List (Nat × Nat)
  | start, e, [] => [(start, e)]
  | start, e, p :: rest =>
    if e = p then
      match char_len_at_index s e with
      | none => []
      | some len => rangesLoop s start (e + len) rest
    else
      (start, e) ::
        (match char_len_at_index s p with
          | none => []
          | some len => rangesLoop s p (p + len) rest)

/-- The list of byte ranges produced by `StringMatch::ranges` in
`strings.rs`, over explicit text and positions. -/
def rangesImpl (s : List Char) : List Nat → List (Nat × Nat)
  | [] => []
  | p :: rest =>
    match char_len_at_index s p with
    | none => []
    | some len => rangesLoop s p (p + len) rest

/-- `StringMatch::ranges` from `strings.rs`, as the list it yields. -/
def StringMatch.ranges (m : StringMatch) : List (Nat × Nat) :=
  rangesImpl m.string m.positions

/-- The builder `scored_candidate_to_string_match` from `strings.rs`. -/
def scored_candidate_to_string_match (c : StringMatchCandidate) (score : Option ℚ) :
    StringMatch :=
  { candidate_id := c.id, score := score, positions := [], string := c.string }

/-- `Match::set_positions` for `StringMatch` (`strings.rs`). -/
def StringMatch.set_positions (m : StringMatch) (ps : List Nat) : StringMatch :=
  { m with positions := ps }

/-- Modelled from the spec: the total order of §4.5 used by the scorer and
the merge step (the code realizing it, `Matcher::match_candidates` in
`matcher.rs` and `util::extend_sorted`, is not among the sources): `a` may
precede `b` iff `a`'s score is greater, or the scores tie and
`a.candidate_id ≤ b.candidate_id` (score descending, ties by ascending id). -/
def rankLE (a b : StringMatch) : Bool :=
  match (scoreCmp a.score b.score).getD Ordering.eq with
  | .gt => true
  | .lt => false
  | .eq => decide (a.candidate_id ≤ b.candidate_id)

/-- Insertion of a match into a rank-ordered list, before the first element
it may precede (so insertion from the right, as in `sortRank`, is stable). -/
def insertRank (x : StringMatch) : List StringMatch → List StringMatch
  | [] => [x]
  | y :: ys => if rankLE x y then x :: y :: ys else y :: insertRank x ys

/-- Stable sort by the §4.5 order (insertion sort). -/
def sortRank (l : List StringMatch) : List StringMatch :=
  l.foldr insertRank []

/-- Helper for `mergeRank`: merges `x :: xs` into the second list, where
`mxs` merges `xs` (structural recursion so the kernel can evaluate it). -/
def mergeAux (x : StringMatch) (mxs : List StringMatch → List StringMatch) :
    List StringMatch → List StringMatch
  | [] => x :: mxs []
  | y :: ys => if rankLE x y then x :: mxs (y :: ys) else y :: mergeAux x mxs ys

/-- Stable merge of two rank-ordered lists, biased to the left (accumulator)
list on ties. -/
def mergeRank : List StringMatch → List StringMatch → List StringMatch
  | [], ys => ys
  | x :: xs, ys => mergeAux x (mergeRank xs) ys

/-- Modelled from the spec: `util::extend_sorted` (the `util` crate is not
among the sources).  Per §4.3 step 5, an order-preserving, tie-stable merge
of the new shard results into the accumulator using the §4.5 order,
truncated to `limit` afterwards. -/
def extend_sorted (acc new : List StringMatch) (limit : Nat) : List StringMatch :=
  (mergeRank acc new).take limit

/-- The matches the scorer materializes for the candidates it accepts, in
candidate order: each accepted candidate's score and positions, built with
the supplied builder (`scored_candidate_to_string_match`) plus
`Match::set_positions`, as the scorer of §6 does. -/
def scoredMatches (σ : StringMatchCandidate → Option (ℚ × List Nat))
    (cs : List StringMatchCandidate) : List StringMatch :=
  cs.filterMap (fun c =>
    (σ c).map (fun r => (scored_candidate_to_string_match c (some r.1)).set_positions r.2))

/-- Modelled from the spec: `Matcher::match_candidates` (`matcher.rs` is not
among the sources).  Per §6, the scorer scores each candidate with the
deterministic per-candidate function `σ` (whose `none` result covers both
the CharBag admissibility rejection and a failed match), materializes
results through the supplied builder plus `set_positions`, and keeps only
the top `k` results, ordered per §4.5 and stable in candidate order. -/
def scorerRun (σ : StringMatchCandidate → Option (ℚ × List Nat)) (k : Nat)
    (cs : List StringMatchCandidate) : List StringMatch :=
  (sortRank (scoredMatches σ cs)).take k

/-- Shard count of `match_strings`: `executor.num_cpus().min(candidates.len())`. -/
def shardCount (numCpus len : Nat) : Nat := min numCpus len

/-- Shard size of `match_strings`:
`(candidates.len() + num_cpus - 1) / num_cpus` (ceiling division). -/
def shardSize (len n : Nat) : Nat := (len + n - 1) / n

/-- The slice `candidates[segment_start..segment_end]` of `match_strings`,
with `segment_start = min(segment_idx * segment_size, candidates.len())` and
`segment_end = min(segment_start + segment_size, candidates.len())`. -/
def shardSegment (cs : List StringMatchCandidate) (size i : Nat) : List StringMatchCandidate :=
  let start := min (i * size) cs.length
  let stop := min (start + size) cs.length
  (cs.drop start).take (stop - start)

/-- The parallel entry point `match_strings` of `strings.rs`.  Each scoped
task writes its result list into its own slot of `segment_results`, so the
awaited outcome is the per-segment scorer outputs in segment order; the
final loop folds them with the empty-accumulator shortcut of the source. -/
def match_strings (σ : StringMatchCandidate → Option (ℚ × List Nat))
    (cs : List StringMatchCandidate) (query : List Char) (k numCpus : Nat) :
    List StringMatch :=
  if cs = [] ∨ k = 0 then []
  else if query = [] then
    cs.map (fun c => scored_candidate_to_string_match c (some 0))
  else
    ((List.range (shardCount numCpus cs.length)).map
      (fun i => scorerRun σ k
        (shardSegment cs (shardSize cs.length (shardCount numCpus cs.length)) i))).foldl
      (fun results seg => if results.isEmpty then seg else extend_sorted results seg k) []

/-- The synchronous entry point `match_strings_synchronously` of
`strings.rs`: one scorer pass over the whole candidate slice. -/
def match_strings_synchronously (σ : StringMatchCandidate → Option (ℚ × List Nat))
    (cs : List StringMatchCandidate) (query : List Char) (k : Nat) :
    List StringMatch :=
  if cs = [] ∨ k = 0 then []
  else if query = [] then
    cs.map (fun c => scored_candidate_to_string_match c (some 0))
  else scorerRun σ k cs

/-- Byte length of the character at a known-valid offset (`0` as a dummy on
invalid offsets); used only by the specification-side `specRuns` below. -/
def charLenD (s : List Char) (p : Nat) : Nat := (char_len_at_index s p).getD 0

/-- Specification-side run grouping (§4.6 wording, for comparison with
`rangesImpl`), while a run that started at `start` has `last` as its last
position so far: a next position equal to `last` plus the byte length of the
character at `last` extends the run, anything else closes it.  Produces one
half-open byte range per maximal run of adjacent matched characters. -/
def specRunsLoop (s : List Char) : Nat → Nat → List Nat → List (Nat × Nat)
  | start, last, [] => [(start, last + charLenD s last)]
  | start, last, p :: rest =>
    if p = last + charLenD s last then specRunsLoop s start p rest
    else (start, last + charLenD s last) :: specRunsLoop s p p rest

/-- Specification-side match-span reconstruction: one half-open byte range
per maximal run of adjacent matched characters. -/
def specRuns (s : List Char) : List Nat → List (Nat × Nat)
  | [] => []
  | p :: rest => specRunsLoop s p p rest

/-- A match whose score is an ordinary comparable number (not NaN-like). -/
def goodM (m : StringMatch) : Prop := ∃ q, m.score = some q


section OrderingLemmas

lemma ordThen_eq_lt {o₁ o₂ : Ordering} :
    o₁.then o₂ = .lt ↔ o₁ = .lt ∨ (o₁ = .eq ∧ o₂ = .lt) := by
  cases o₁ <;> simp [Ordering.then]

lemma ordThen_eq_eq {o₁ o₂ : Ordering} :
    o₁.then o₂ = .eq ↔ o₁ = .eq ∧ o₂ = .eq := by
  cases o₁ <;> simp [Ordering.then]

lemma ordThen_swap (o₁ o₂ : Ordering) :
    (o₁.then o₂).swap = o₁.swap.then o₂.swap := by
  cases o₁ <;> cases o₂ <;> rfl

lemma cmpQ_eq_lt {a b : ℚ} : cmpQ a b = .lt ↔ a < b := by
  unfold cmpQ
  split_ifs with h1 h2
  · exact iff_of_true rfl h1
  · exact iff_of_false (by decide) h1
  · exact iff_of_false (by decide) h1

lemma cmpQ_eq_gt {a b : ℚ} : cmpQ a b = .gt ↔ b < a := by
  unfold cmpQ
  split_ifs with h1 h2
  · exact iff_of_false (by decide) (lt_asymm h1)
  · exact iff_of_true rfl h2
  · exact iff_of_false (by decide) h2

lemma cmpQ_eq_eq {a b : ℚ} : cmpQ a b = .eq ↔ a = b := by
  unfold cmpQ
  split_ifs with h1 h2
  · exact iff_of_false (by decide) (ne_of_lt h1)
  · exact iff_of_false (by decide) (ne_of_gt h2)
  · exact iff_of_true rfl (le_antisymm (not_lt.mp h2) (not_lt.mp h1))

lemma cmpQ_swap (a b : ℚ) : cmpQ a b = (cmpQ b a).swap := by
  rcases lt_trichotomy a b with h | h | h
  · rw [cmpQ_eq_lt.mpr h, (by rfl : Ordering.lt = Ordering.gt.swap)]
    rw [cmpQ_eq_gt.mpr h]
  · subst h; rw [cmpQ_eq_eq.mpr rfl]; rfl
  · rw [cmpQ_eq_gt.mpr h, (by rfl : Ordering.gt = Ordering.lt.swap), cmpQ_eq_lt.mpr h]

lemma cmpN_eq_lt {a b : Nat} : cmpN a b = .lt ↔ a < b := by
  unfold cmpN
  split_ifs with h1 h2
  · exact iff_of_true rfl h1
  · exact iff_of_false (by decide) h1
  · exact iff_of_false (by decide) h1

lemma cmpN_eq_eq {a b : Nat} : cmpN a b = .eq ↔ a = b := by
  unfold cmpN
  split_ifs with h1 h2
  · exact iff_of_false (by decide) (by omega)
  · exact iff_of_false (by decide) (by omega)
  · exact iff_of_true rfl (by omega)

lemma cmpN_swap (a b : Nat) : cmpN a b = (cmpN b a).swap := by
  unfold cmpN
  rcases Nat.lt_trichotomy a b with h | h | h
  · simp [h, lt_asymm h]; rfl
  · simp [h, lt_irrefl]; rfl
  · simp [h, lt_asymm h]; rfl

lemma cmp_of_some {a b : StringMatch} {qa qb : ℚ}
    (ha : a.score = some qa) (hb : b.score = some qb) :
    a.cmp b = (cmpQ qa qb).then (cmpN a.candidate_id b.candidate_id) := by
  simp [StringMatch.cmp, scoreCmp, ha, hb]

end OrderingLemmas

/-- C7 counterexample: `StringMatch.cmp` is not a strict total order once a
non-comparable (NaN-like) score participates.  With
`A = {id 1, score NaN}`, `B = {id 2, score 1}`, `C = {id 0, score 2}` the
relation is not transitive (`A < B`, `B < C`, yet `A > C`), and `A` compares
equal to `A' = {id 1, score 1}` although their scores differ, refuting
"equal under the order iff equal score and equal id" as stated. -/
theorem C7_counterexample :
    (⟨1, none, [], []⟩ : StringMatch).cmp ⟨2, some 1, [], []⟩ = .lt ∧
    (⟨2, some 1, [], []⟩ : StringMatch).cmp ⟨0, some 2, [], []⟩ = .lt ∧
    (⟨1, none, [], []⟩ : StringMatch).cmp ⟨0, some 2, [], []⟩ = .gt ∧
    (⟨1, none, [], []⟩ : StringMatch).cmp ⟨1, some 1, [], []⟩ = .eq ∧
    (⟨1, none, [], ([] : List Char)⟩ : StringMatch).score ≠
      (⟨1, some 1, [], []⟩ : StringMatch).score := by
  refine ⟨by decide, ?_, by decide, by decide, by decide⟩
  show ((scoreCmp (some 1) (some 2)).getD Ordering.eq).then (cmpN 2 0) = .lt
  rw [show scoreCmp (some 1) (some 2) = some (cmpQ 1 2) from rfl,
    cmpQ_eq_lt.mpr (by norm_num)]
  rfl

/-- C7 amended: on `StringMatch` values whose scores are pairwise comparable
(none is NaN-like), `cmp` is a strict total order — it is antisymmetric
(`cmp a b` is the swap of `cmp b a`), yields `eq` exactly on equal score and
equal `candidate_id`, and is transitive; and a non-comparable score pair is
treated as equal rather than an error, so comparison falls through to the
`candidate_id` tie-break. -/
theorem C7_total_order_on_comparable (a b c : StringMatch) (qa qb qc : ℚ)
    (ha : a.score = some qa) (hb : b.score = some qb) (hc : c.score = some qc) :
    (a.cmp b = (b.cmp a).swap) ∧
    (a.cmp b = .eq ↔ a.score = b.score ∧ a.candidate_id = b.candidate_id) ∧
    (a.cmp b = .lt → b.cmp c = .lt → a.cmp c = .lt) ∧
    (∀ d e : StringMatch, d.score = none → d.cmp e = cmpN d.candidate_id e.candidate_id) := by
  refine ⟨?_, ?_, ?_, ?_⟩
  · rw [cmp_of_some ha hb, cmp_of_some hb ha, ordThen_swap, ← cmpQ_swap, ← cmpN_swap]
  · rw [cmp_of_some ha hb, ordThen_eq_eq, cmpQ_eq_eq, cmpN_eq_eq, ha, hb]
    exact and_congr_left' (by simp)
  · rw [cmp_of_some ha hb, cmp_of_some hb hc, cmp_of_some ha hc,
      ordThen_eq_lt, ordThen_eq_lt, ordThen_eq_lt]
    rintro (h1 | ⟨h1, h1'⟩) (h2 | ⟨h2, h2'⟩)
    · exact Or.inl (cmpQ_eq_lt.mpr (lt_trans (cmpQ_eq_lt.mp h1) (cmpQ_eq_lt.mp h2)))
    · exact Or.inl (cmpQ_eq_lt.mpr (cmpQ_eq_eq.mp h2 ▸ cmpQ_eq_lt.mp h1))
    · exact Or.inl (cmpQ_eq_lt.mpr ((cmpQ_eq_eq.mp h1).symm ▸ cmpQ_eq_lt.mp h2))
    · refine Or.inr ⟨cmpQ_eq_eq.mpr ((cmpQ_eq_eq.mp h1).trans (cmpQ_eq_eq.mp h2)), ?_⟩
      exact cmpN_eq_lt.mpr (lt_trans (cmpN_eq_lt.mp h1') (cmpN_eq_lt.mp h2'))
  · intro d e hd
    cases he : e.score <;> simp [StringMatch.cmp, scoreCmp, hd, he, Ordering.then]

/-- Witness for `C7_total_order_on_comparable` at concrete matches with
scores `1`, `2`, `3`. -/
theorem C7_total_order_on_comparable_witness :
    ((⟨5, some 1, [], []⟩ : StringMatch).score = some 1 ∧
     (⟨7, some 2, [], []⟩ : StringMatch).score = some 2 ∧
     (⟨9, some 3, [], []⟩ : StringMatch).score = some 3) ∧
    (((⟨5, some 1, [], []⟩ : StringMatch).cmp ⟨7, some 2, [], []⟩ =
        ((⟨7, some 2, [], []⟩ : StringMatch).cmp ⟨5, some 1, [], []⟩).swap) ∧
     ((⟨5, some 1, [], []⟩ : StringMatch).cmp ⟨7, some 2, [], []⟩ = .eq ↔
        (⟨5, some 1, [], []⟩ : StringMatch).score = (⟨7, some 2, [], []⟩ : StringMatch).score ∧
        (⟨5, some 1, [], []⟩ : StringMatch).candidate_id =
          (⟨7, some 2, [], []⟩ : StringMatch).candidate_id) ∧
     ((⟨5, some 1, [], []⟩ : StringMatch).cmp ⟨7, some 2, [], []⟩ = .lt →
        (⟨7, some 2, [], []⟩ : StringMatch).cmp ⟨9, some 3, [], []⟩ = .lt →
        (⟨5, some 1, [], []⟩ : StringMatch).cmp ⟨9, some 3, [], []⟩ = .lt) ∧
     (∀ d e : StringMatch, d.score = none → d.cmp e = cmpN d.candidate_id e.candidate_id)) :=
  ⟨⟨rfl, rfl, rfl⟩,
    C7_total_order_on_comparable ⟨5, some 1, [], []⟩ ⟨7, some 2, [], []⟩ ⟨9, some 3, [], []⟩
      1 2 3 rfl rfl rfl⟩

/-- C9: when the candidate set is empty or the result cap is zero, both
entry points return the empty result sequence. -/
theorem C9_degenerate_inputs (σ : StringMatchCandidate → Option (ℚ × List Nat))
    (cs : List StringMatchCandidate) (q : List Char) (k nc : Nat)
    (h : cs = [] ∨ k = 0) :
    match_strings σ cs q k nc = [] ∧ match_strings_synchronously σ cs q k = [] := by
  constructor
  · unfold match_strings; rw [if_pos h]
  · unfold match_strings_synchronously; rw [if_pos h]

/-- Witness for `C9_degenerate_inputs`: one candidate but a zero cap. -/
theorem C9_degenerate_inputs_witness :
    (([⟨0, ['a']⟩] : List StringMatchCandidate) = [] ∨ (0 : Nat) = 0) ∧
    match_strings (fun _ => none) [⟨0, ['a']⟩] ['a'] 0 4 = [] ∧
    match_strings_synchronously (fun _ => none) [⟨0, ['a']⟩] ['a'] 0 = [] :=
  ⟨Or.inr rfl,
    C9_degenerate_inputs (fun _ => none) [⟨0, ['a']⟩] ['a'] 0 4 (Or.inr rfl)⟩

/-- C3: with a non-empty candidate set, a positive cap and an empty query,
both entry points return exactly one trivial result per candidate (score
`0`, empty positions), in input order, and the cap is not applied: the
output length always equals the candidate count. -/
theorem C3_empty_query (σ : StringMatchCandidate → Option (ℚ × List Nat))
    (cs : List StringMatchCandidate) (k nc : Nat)
    (hcs : cs ≠ []) (hk : 0 < k) :
    match_strings σ cs [] k nc =
      cs.map (fun c => scored_candidate_to_string_match c (some 0)) ∧
    match_strings_synchronously σ cs [] k =
      cs.map (fun c => scored_candidate_to_string_match c (some 0)) ∧
    (match_strings σ cs [] k nc).length = cs.length ∧
    (match_strings σ cs [] k nc).map (fun m => m.candidate_id) = cs.map (fun c => c.id) ∧
    ∀ m ∈ match_strings σ cs [] k nc, m.score = some 0 ∧ m.positions = [] := by
  have hcond : ¬(cs = [] ∨ k = 0) := by
    rintro (h | h)
    · exact hcs h
    · omega
  have h1 : match_strings σ cs [] k nc =
      cs.map (fun c => scored_candidate_to_string_match c (some 0)) := by
    unfold match_strings; rw [if_neg hcond, if_pos rfl]
  have h2 : match_strings_synchronously σ cs [] k =
      cs.map (fun c => scored_candidate_to_string_match c (some 0)) := by
    unfold match_strings_synchronously; rw [if_neg hcond, if_pos rfl]
  refine ⟨h1, h2, ?_, ?_, ?_⟩
  · rw [h1, List.length_map]
  · rw [h1, List.map_map]; rfl
  · intro m hm
    rw [h1] at hm
    obtain ⟨c, _, rfl⟩ := List.mem_map.mp hm
    exact ⟨rfl, rfl⟩

/-- Witness for `C3_empty_query`: two candidates, cap `1` — the output still
has both candidates, in input order, so the cap is indeed ignored. -/
theorem C3_empty_query_witness :
    (([⟨3, ['a']⟩, ⟨1, []⟩] : List StringMatchCandidate) ≠ [] ∧ (0 : Nat) < 1) ∧
    match_strings (fun _ => none) [⟨3, ['a']⟩, ⟨1, []⟩] [] 1 2 =
      List.map (fun c => scored_candidate_to_string_match c (some 0))
        [⟨3, ['a']⟩, ⟨1, []⟩] ∧
    (match_strings (fun _ => none) [⟨3, ['a']⟩, ⟨1, []⟩] [] 1 2).length = 2 :=
  ⟨⟨by decide, by decide⟩,
    (C3_empty_query (fun _ => none) [⟨3, ['a']⟩, ⟨1, []⟩] 1 2 (by decide) (by decide)).1,
    ((C3_empty_query (fun _ => none) [⟨3, ['a']⟩, ⟨1, []⟩] 1 2 (by decide) (by decide)).2.2.1)⟩

section RangesLemmas

lemma rangesLoop_nil (s : List Char) (start e : Nat) :
    rangesLoop s start e [] = [(start, e)] := rfl

lemma rangesLoop_cons (s : List Char) (start e p : Nat) (rest : List Nat) :
    rangesLoop s start e (p :: rest) =
      if e = p then
        (match char_len_at_index s e with
          | none => []
          | some len => rangesLoop s start (e + len) rest)
      else
        (start, e) ::
          (match char_len_at_index s p with
            | none => []
            | some len => rangesLoop s p (p + len) rest) := rfl

lemma rangesImpl_cons (s : List Char) (p : Nat) (rest : List Nat) :
    rangesImpl s (p :: rest) =
      match char_len_at_index s p with
      | none => []
      | some len => rangesLoop s p (p + len) rest := rfl

lemma specRunsLoop_nil (s : List Char) (start last : Nat) :
    specRunsLoop s start last [] = [(start, last + charLenD s last)] := rfl

lemma specRunsLoop_cons (s : List Char) (start last p : Nat) (rest : List Nat) :
    specRunsLoop s start last (p :: rest) =
      if p = last + charLenD s last then specRunsLoop s start p rest
      else (start, last + charLenD s last) :: specRunsLoop s p p rest := rfl

lemma utf8Len_cons (c : Char) (rest : List Char) :
    utf8Len (c :: rest) = c.utf8Size + utf8Len rest := by
  simp [utf8Len]

lemma char_len_bounds : ∀ (s : List Char) (ix len : Nat),
    char_len_at_index s ix = some len → 0 < len ∧ ix + len ≤ utf8Len s := by
  intro s
  induction s with
  | nil => intro ix len h; simp [char_len_at_index] at h
  | cons c rest ih =>
    intro ix len h
    unfold char_len_at_index at h
    split_ifs at h with h0 h1
    · injection h with h
      subst h; subst h0
      refine ⟨c.utf8Size_pos, ?_⟩
      rw [utf8Len_cons]; omega
    · have hb := ih _ _ h
      rw [utf8Len_cons]
      omega

lemma rangesLoop_bounds (s : List Char) :
    ∀ (ps : List Nat) (start e : Nat), start < e → e ≤ utf8Len s →
      ∀ r ∈ rangesLoop s start e ps, r.1 < r.2 ∧ r.2 ≤ utf8Len s := by
  intro ps
  induction ps with
  | nil =>
    intro start e h1 h2 r hr
    rw [rangesLoop_nil, List.mem_singleton] at hr
    subst hr; exact ⟨h1, h2⟩
  | cons p rest ih =>
    intro start e h1 h2 r hr
    rw [rangesLoop_cons] at hr
    by_cases h : e = p
    · rw [if_pos h] at hr
      cases hc : char_len_at_index s e with
      | none => rw [hc] at hr; simp at hr
      | some len =>
        rw [hc] at hr
        have hb := char_len_bounds s e len hc
        exact ih start (e + len) (by omega) (by omega) r hr
    · rw [if_neg h] at hr
      rcases List.mem_cons.mp hr with h' | h'
      · subst h'; exact ⟨h1, h2⟩
      · cases hc : char_len_at_index s p with
        | none => rw [hc] at h'; simp at h'
        | some len =>
          rw [hc] at h'
          have hb := char_len_bounds s p len hc
          exact ih p (p + len) (by omega) (by omega) r h'

lemma rangesLoop_corrupt (s : List Char) (p : Nat)
    (hp : char_len_at_index s p = none) :
    ∀ (ps : List Nat) (start e : Nat) (qs : List Nat),
      rangesLoop s start e (ps ++ p :: qs) = rangesLoop s start e (ps ++ [p]) := by
  intro ps
  induction ps with
  | nil =>
    intro start e qs
    rw [List.nil_append, List.nil_append, rangesLoop_cons, rangesLoop_cons]
    split_ifs with h
    · rw [h, hp]
    · rw [hp]
  | cons x ps ih =>
    intro start e qs
    by_cases h : e = x
    · cases hc : char_len_at_index s x with
      | none => simp [rangesLoop_cons, h, hc]
      | some len => simp [rangesLoop_cons, h, hc, ih]
    · cases hc : char_len_at_index s x with
      | none => simp [rangesLoop_cons, h, hc]
      | some len => simp [rangesLoop_cons, h, hc, ih]

lemma rangesLoop_eq_specRunsLoop (s : List Char) :
    ∀ (ps : List Nat) (start last len : Nat),
      char_len_at_index s last = some len →
      (∀ p ∈ ps, (char_len_at_index s p).isSome) →
      rangesLoop s start (last + len) ps = specRunsLoop s start last ps := by
  intro ps
  induction ps with
  | nil =>
    intro start last len hl _
    rw [rangesLoop_nil, specRunsLoop_nil]
    simp [charLenD, hl]
  | cons p rest ih =>
    intro start last len hl hv
    obtain ⟨lp, hlp⟩ := Option.isSome_iff_exists.mp (hv p (List.mem_cons_self _ _))
    have hrest : ∀ x ∈ rest, (char_len_at_index s x).isSome :=
      fun x hx => hv x (List.mem_cons_of_mem _ hx)
    have hld : charLenD s last = len := by simp [charLenD, hl]
    by_cases h : last + len = p
    · rw [rangesLoop_cons, if_pos h, specRunsLoop_cons, if_pos (by omega : p = last + charLenD s last)]
      rw [h, hlp]
      exact ih start p lp hlp hrest
    · rw [rangesLoop_cons, if_neg h, specRunsLoop_cons, if_neg (by omega : ¬ p = last + charLenD s last), hld]
      rw [hlp]
      exact congrArg (List.cons (start, last + len)) (ih p p lp hlp hrest)

end RangesLemmas

/-- C10: match-span reconstruction is safe on arbitrary positions vectors —
it is a total function of the match (never panics: `char_len_at_index`
returns `none` instead of failing on out-of-range or non-boundary offsets),
and every range it produces is non-degenerate and inside the text:
`start < end` and `end ≤` the text's byte length. -/
theorem C10_ranges_bounds (m : StringMatch) :
    ∀ r ∈ m.ranges, r.1 < r.2 ∧ r.2 ≤ utf8Len m.string := by
  intro r hr
  have : r ∈ rangesImpl m.string m.positions := hr
  rcases hl : m.positions with _ | ⟨p, rest⟩
  · rw [hl] at this; simp [rangesImpl] at this
  · rw [hl, rangesImpl_cons] at this
    cases hc : char_len_at_index m.string p with
    | none => rw [hc] at this; simp at this
    | some len =>
      rw [hc] at this
      have hb := char_len_bounds m.string p len hc
      exact rangesLoop_bounds m.string rest p (p + len) (by omega) (by omega) r this

/-- Witness for `C10_ranges_bounds`: the range `(0, 2)` produced on text
`"ab"` from positions `[0, 1]` is inside the two-byte text. -/
theorem C10_ranges_bounds_witness :
    ((0, 2) ∈ (⟨0, some 0, [0, 1], "ab".toList⟩ : StringMatch).ranges) ∧
    ((0, 2).1 < (0, 2).2 ∧
      (0, 2).2 ≤ utf8Len (⟨0, some 0, [0, 1], "ab".toList⟩ : StringMatch).string) :=
  ⟨by decide, C10_ranges_bounds ⟨0, some 0, [0, 1], "ab".toList⟩ (0, 2) (by decide)⟩

/-- C6 counterexample: position `5` is out of range for `"abc"`, and the
later position `0` is perfectly valid (`char_len_at_index` yields `some 1`),
yet `ranges` produces nothing at all for positions `[5, 0]` — the range for
the subsequent valid position is *not* produced, because the first `None`
of the `iter::from_fn` closure terminates the whole iteration. -/
theorem C6_counterexample :
    char_len_at_index "abc".toList 5 = none ∧
    char_len_at_index "abc".toList 0 = some 1 ∧
    (⟨0, some 0, [5, 0], "abc".toList⟩ : StringMatch).ranges = [] := by
  decide

/-- C6 amended: on the first corrupted position (out of range or not on a
UTF-8 boundary) a diagnostic is logged and range reconstruction for that
match stops there: the output equals the output on the positions prefix up
to and including the corrupted position (everything after it is ignored;
the in-progress range is also dropped when the corruption occurs while
extending it).  Only the one match is affected — `ranges` is a function of
a single `StringMatch`, so the rest of the result set is untouched. -/
theorem C6_reconstruction_stops_at_corruption (m : StringMatch) (ps qs : List Nat) (p : Nat)
    (hpos : m.positions = ps ++ p :: qs) (hp : char_len_at_index m.string p = none) :
    m.ranges = rangesImpl m.string (ps ++ [p]) := by
  show rangesImpl m.string m.positions = rangesImpl m.string (ps ++ [p])
  rw [hpos]
  cases ps with
  | nil => simp [rangesImpl_cons, hp]
  | cons x ps' =>
    show rangesImpl m.string (x :: (ps' ++ p :: qs)) = rangesImpl m.string (x :: (ps' ++ [p]))
    cases hc : char_len_at_index m.string x with
    | none => simp [rangesImpl_cons, hc]
    | some len => simp [rangesImpl_cons, hc, rangesLoop_corrupt m.string p hp]

/-- Witness for `C6_reconstruction_stops_at_corruption`: positions
`[0, 5, 1]` on `"abc"` produce exactly what `[0, 5]` produces. -/
theorem C6_reconstruction_stops_witness :
    ((⟨0, some 0, [0, 5, 1], "abc".toList⟩ : StringMatch).positions = [0] ++ 5 :: [1] ∧
     char_len_at_index "abc".toList 5 = none) ∧
    (⟨0, some 0, [0, 5, 1], "abc".toList⟩ : StringMatch).ranges =
      rangesImpl "abc".toList ([0] ++ [5]) :=
  ⟨⟨rfl, by decide⟩,
    C6_reconstruction_stops_at_corruption ⟨0, some 0, [0, 5, 1], "abc".toList⟩
      [0] [1] 5 rfl (by decide)⟩

/-- C5: for strictly increasing positions on valid character boundaries,
`ranges` produces exactly one half-open byte range per maximal run of
adjacent matched characters (adjacency by UTF-8 byte length), i.e. agrees
with the specification-side `specRuns`. -/
theorem C5_ranges_eq_maximal_runs (m : StringMatch)
    (_hmono : m.positions.Pairwise (fun a b => a < b))
    (hvalid : ∀ p ∈ m.positions, (char_len_at_index m.string p).isSome) :
    m.ranges = specRuns m.string m.positions := by
  show rangesImpl m.string m.positions = specRuns m.string m.positions
  rcases hl : m.positions with _ | ⟨p, rest⟩
  · rfl
  · rw [hl] at hvalid
    obtain ⟨lp, hlp⟩ := Option.isSome_iff_exists.mp (hvalid p (List.mem_cons_self _ _))
    show rangesImpl m.string (p :: rest) = specRunsLoop m.string p p rest
    rw [rangesImpl_cons, hlp]
    exact rangesLoop_eq_specRunsLoop m.string rest p p lp hlp
      (fun x hx => hvalid x (List.mem_cons_of_mem _ hx))

/-- Witness for `C5_ranges_eq_maximal_runs` at the spec's two round-trip
examples: positions `[0, 1, 2, 5]` on `"abcdef"` give `[0..3, 5..6]`, and
positions `[0, 1, 3]` on `"héllo"` (where `é` is two bytes) give `[0..4]`. -/
theorem C5_ranges_eq_maximal_runs_witness :
    (List.Pairwise (fun a b => a < b) [0, 1, 2, 5] ∧
     (∀ p ∈ [0, 1, 2, 5], (char_len_at_index "abcdef".toList p).isSome) ∧
     List.Pairwise (fun a b => a < b) [0, 1, 3] ∧
     (∀ p ∈ [0, 1, 3], (char_len_at_index "héllo".toList p).isSome)) ∧
    (⟨0, some 0, [0, 1, 2, 5], "abcdef".toList⟩ : StringMatch).ranges = [(0, 3), (5, 6)] ∧
    (⟨0, some 0, [0, 1, 3], "héllo".toList⟩ : StringMatch).ranges = [(0, 4)] :=
  ⟨⟨by decide, by decide, by decide, by decide⟩,
    (C5_ranges_eq_maximal_runs ⟨0, some 0, [0, 1, 2, 5], "abcdef".toList⟩
      (by decide) (by decide)).trans (by decide),
    (C5_ranges_eq_maximal_runs ⟨0, some 0, [0, 1, 3], "héllo".toList⟩
      (by decide) (by decide)).trans (by decide)⟩

section RankLemmas

lemma insertRank_nil (x : StringMatch) : insertRank x [] = [x] := rfl

lemma insertRank_cons (x y : StringMatch) (ys : List StringMatch) :
    insertRank x (y :: ys) =
      if rankLE x y then x :: y :: ys else y :: insertRank x ys := rfl

lemma rankLE_some {a b : StringMatch} {qa qb : ℚ}
    (ha : a.score = some qa) (hb : b.score = some qb) :
    rankLE a b = true ↔ (qb < qa ∨ (qa = qb ∧ a.candidate_id ≤ b.candidate_id)) := by
  unfold rankLE
  rw [ha, hb]
  have hred : (scoreCmp (some qa) (some qb)).getD Ordering.eq = cmpQ qa qb := rfl
  rw [hred]
  rcases lt_trichotomy qa qb with h | h | h
  · rw [cmpQ_eq_lt.mpr h]
    show (false = true) ↔ (qb < qa ∨ (qa = qb ∧ a.candidate_id ≤ b.candidate_id))
    refine iff_of_false (by simp) ?_
    rintro (h' | ⟨h', _⟩)
    · exact lt_asymm h h'
    · subst h'; exact lt_irrefl _ h
  · rw [cmpQ_eq_eq.mpr h]
    show (decide (a.candidate_id ≤ b.candidate_id) = true) ↔
      (qb < qa ∨ (qa = qb ∧ a.candidate_id ≤ b.candidate_id))
    rw [decide_eq_true_eq]
    constructor
    · intro hid; exact Or.inr ⟨h, hid⟩
    · rintro (h' | ⟨_, hid⟩)
      · subst h; exact absurd h' (lt_irrefl _)
      · exact hid
  · rw [cmpQ_eq_gt.mpr h]
    show (true = true) ↔ (qb < qa ∨ (qa = qb ∧ a.candidate_id ≤ b.candidate_id))
    exact iff_of_true rfl (Or.inl h)

lemma rank_total {a b : StringMatch} {qa qb : ℚ}
    (ha : a.score = some qa) (hb : b.score = some qb)
    (h : ¬ rankLE a b = true) : rankLE b a = true := by
  have hn : ¬ (qb < qa ∨ (qa = qb ∧ a.candidate_id ≤ b.candidate_id)) :=
    fun hc => h ((rankLE_some ha hb).mpr hc)
  push_neg at hn
  obtain ⟨h1, h2⟩ := hn
  rw [rankLE_some hb ha]
  rcases lt_or_eq_of_le h1 with hlt | heq
  · exact Or.inl hlt
  · exact Or.inr ⟨heq.symm, (h2 heq).le⟩

lemma rank_trans {a b c : StringMatch} {qa qb qc : ℚ}
    (ha : a.score = some qa) (hb : b.score = some qb) (hc : c.score = some qc)
    (hab : rankLE a b = true) (hbc : rankLE b c = true) : rankLE a c = true := by
  rw [rankLE_some ha hb] at hab
  rw [rankLE_some hb hc] at hbc
  rw [rankLE_some ha hc]
  rcases hab with h1 | ⟨h1, h1'⟩ <;> rcases hbc with h2 | ⟨h2, h2'⟩
  · exact Or.inl (lt_trans h2 h1)
  · subst h2; exact Or.inl h1
  · subst h1; exact Or.inl h2
  · subst h1; exact Or.inr ⟨h2, le_trans h1' h2'⟩

lemma mem_insertRank {m x : StringMatch} : ∀ {l : List StringMatch},
    m ∈ insertRank x l ↔ m = x ∨ m ∈ l := by
  intro l
  induction l with
  | nil => simp [insertRank]
  | cons y ys ih =>
    rw [insertRank_cons]
    split_ifs with h
    · simp
    · rw [List.mem_cons, ih, List.mem_cons]
      tauto

lemma mem_sortRank {m : StringMatch} : ∀ {l : List StringMatch},
    m ∈ sortRank l ↔ m ∈ l := by
  intro l
  induction l with
  | nil => simp [sortRank]
  | cons x l ih =>
    show m ∈ insertRank x (sortRank l) ↔ _
    rw [mem_insertRank, ih, List.mem_cons]

lemma pairwise_insertRank {x : StringMatch} {l : List StringMatch}
    (hx : goodM x) (hl : ∀ m ∈ l, goodM m)
    (hp : l.Pairwise (fun a b => rankLE a b = true)) :
    (insertRank x l).Pairwise (fun a b => rankLE a b = true) := by
  induction l with
  | nil => simp [insertRank]
  | cons y ys ih =>
    have hy : goodM y := hl y (List.mem_cons_self _ _)
    have hys : ∀ m ∈ ys, goodM m := fun m hm => hl m (List.mem_cons_of_mem _ hm)
    obtain ⟨h1, h2⟩ := List.pairwise_cons.mp hp
    rw [insertRank_cons]
    split_ifs with h
    · rw [List.pairwise_cons]
      refine ⟨?_, hp⟩
      intro b hb
      rcases List.mem_cons.mp hb with rfl | hb
      · exact h
      · obtain ⟨qx, hqx⟩ := hx
        obtain ⟨qy, hqy⟩ := hy
        obtain ⟨qb, hqb⟩ := hys b hb
        exact rank_trans hqx hqy hqb h (h1 b hb)
    · rw [List.pairwise_cons]
      constructor
      · intro b hb
        rcases mem_insertRank.mp hb with rfl | hb
        · obtain ⟨qx, hqx⟩ := hx
          obtain ⟨qy, hqy⟩ := hy
          exact rank_total hqx hqy h
        · exact h1 b hb
      · exact ih hys h2

lemma pairwise_sortRank {l : List StringMatch} (hl : ∀ m ∈ l, goodM m) :
    (sortRank l).Pairwise (fun a b => rankLE a b = true) := by
  induction l with
  | nil => simp [sortRank]
  | cons x l ih =>
    show (insertRank x (sortRank l)).Pairwise _
    exact pairwise_insertRank (hl x (List.mem_cons_self _ _))
      (fun m hm => hl m (List.mem_cons_of_mem _ (mem_sortRank.mp hm)))
      (ih (fun m hm => hl m (List.mem_cons_of_mem _ hm)))

end RankLemmas

section MergeLemmas

lemma mergeRank_nil_left (ys : List StringMatch) : mergeRank [] ys = ys := rfl

lemma mergeRank_nil_right (xs : List StringMatch) : mergeRank xs [] = xs := by
  induction xs with
  | nil => rfl
  | cons a t ih =>
    show a :: mergeRank t [] = a :: t
    rw [ih]

lemma mergeRank_cons_cons (x y : StringMatch) (xs ys : List StringMatch) :
    mergeRank (x :: xs) (y :: ys) =
      if rankLE x y then x :: mergeRank xs (y :: ys) else y :: mergeRank (x :: xs) ys := rfl

lemma mergeRank_insertRank (x : StringMatch) (hx : goodM x) :
    ∀ (L : List StringMatch), (∀ m ∈ L, goodM m) →
      ∀ (S : List StringMatch), (∀ m ∈ S, goodM m) →
        mergeRank (insertRank x L) S = insertRank x (mergeRank L S) := by
  intro L
  induction L with
  | nil =>
    intro _ S
    induction S with
    | nil =>
      intro _
      show mergeRank [x] [] = insertRank x (mergeRank [] [])
      rw [mergeRank_nil_right, mergeRank_nil_left, insertRank_nil]
    | cons s S' ihS =>
      intro hS
      have hS' : ∀ m ∈ S', goodM m := fun m hm => hS m (List.mem_cons_of_mem _ hm)
      show mergeRank [x] (s :: S') = insertRank x (mergeRank [] (s :: S'))
      rw [mergeRank_nil_left, mergeRank_cons_cons, insertRank_cons]
      split_ifs with h
      · rw [mergeRank_nil_left]
      · congr 1
        have := ihS hS'
        rw [mergeRank_nil_left] at this
        exact this
  | cons l L' ihL =>
    intro hL S
    have hl : goodM l := hL l (List.mem_cons_self _ _)
    have hL' : ∀ m ∈ L', goodM m := fun m hm => hL m (List.mem_cons_of_mem _ hm)
    induction S with
    | nil =>
      intro _
      rw [mergeRank_nil_right, mergeRank_nil_right]
    | cons s S' ihS =>
      intro hS
      have hs : goodM s := hS s (List.mem_cons_self _ _)
      have hS' : ∀ m ∈ S', goodM m := fun m hm => hS m (List.mem_cons_of_mem _ hm)
      obtain ⟨qx, hqx⟩ := hx
      obtain ⟨ql, hql⟩ := hl
      obtain ⟨qs, hqs⟩ := hs
      by_cases hxl : rankLE x l = true
      · have hins : insertRank x (l :: L') = x :: l :: L' := by
          rw [insertRank_cons, if_pos hxl]
        rw [hins]
        by_cases hxs : rankLE x s = true
        · rw [mergeRank_cons_cons x s (l :: L') S', if_pos hxs]
          by_cases hls : rankLE l s = true
          · rw [mergeRank_cons_cons l s L' S', if_pos hls]
            rw [insertRank_cons, if_pos hxl]
          · rw [mergeRank_cons_cons l s L' S', if_neg hls]
            rw [insertRank_cons, if_pos hxs]
        · have hls : ¬ rankLE l s = true := fun hls => hxs (rank_trans hqx hql hqs hxl hls)
          rw [mergeRank_cons_cons x s (l :: L') S', if_neg hxs]
          rw [mergeRank_cons_cons l s L' S', if_neg hls]
          rw [insertRank_cons, if_neg hxs]
          congr 1
          have := ihS hS'
          rw [hins] at this
          exact this
      · have hins : insertRank x (l :: L') = l :: insertRank x L' := by
          rw [insertRank_cons, if_neg hxl]
        rw [hins]
        by_cases hls : rankLE l s = true
        · rw [mergeRank_cons_cons l s (insertRank x L') S', if_pos hls]
          rw [mergeRank_cons_cons l s L' S', if_pos hls]
          rw [insertRank_cons, if_neg hxl]
          congr 1
          exact ihL hL' (s :: S') hS
        · have hsl : rankLE s l = true := rank_total hql hqs hls
          have hxs : ¬ rankLE x s = true := fun hxs => hxl (rank_trans hqx hqs hql hxs hsl)
          rw [mergeRank_cons_cons l s (insertRank x L') S', if_neg hls]
          rw [mergeRank_cons_cons l s L' S', if_neg hls]
          rw [insertRank_cons, if_neg hxs]
          congr 1
          have := ihS hS'
          rw [hins] at this
          exact this

lemma mergeRank_sortRank_foldr (S : List StringMatch) (hS : ∀ m ∈ S, goodM m) :
    ∀ (xs : List StringMatch), (∀ m ∈ xs, goodM m) →
      mergeRank (sortRank xs) S = xs.foldr insertRank S := by
  intro xs
  induction xs with
  | nil =>
    intro _
    show mergeRank [] S = S
    rw [mergeRank_nil_left]
  | cons x xs ih =>
    intro hxs
    have hx : goodM x := hxs x (List.mem_cons_self _ _)
    have hxs' : ∀ m ∈ xs, goodM m := fun m hm => hxs m (List.mem_cons_of_mem _ hm)
    show mergeRank (insertRank x (sortRank xs)) S = insertRank x (xs.foldr insertRank S)
    rw [mergeRank_insertRank x hx (sortRank xs)
      (fun m hm => hxs' m (mem_sortRank.mp hm)) S hS]
    rw [ih hxs']

lemma sortRank_append (xs ys : List StringMatch)
    (hxs : ∀ m ∈ xs, goodM m) (hys : ∀ m ∈ ys, goodM m) :
    sortRank (xs ++ ys) = mergeRank (sortRank xs) (sortRank ys) := by
  rw [mergeRank_sortRank_foldr (sortRank ys)
    (fun m hm => hys m (mem_sortRank.mp hm)) xs hxs]
  show (xs ++ ys).foldr insertRank [] = xs.foldr insertRank (ys.foldr insertRank [])
  rw [List.foldr_append]

lemma take_mergeRank_take :
    ∀ (k m n : Nat) (A B : List StringMatch), k ≤ m → k ≤ n →
      (mergeRank (A.take m) (B.take n)).take k = (mergeRank A B).take k := by
  intro k
  induction k with
  | zero => intro m n A B _ _; rfl
  | succ k ih =>
    intro m n A B hm hn
    cases A with
    | nil =>
      rw [List.take_nil, mergeRank_nil_left, mergeRank_nil_left, List.take_take]
      congr 1
      omega
    | cons a A' =>
      cases B with
      | nil =>
        rw [List.take_nil, mergeRank_nil_right, mergeRank_nil_right, List.take_take]
        congr 1
        omega
      | cons b B' =>
        obtain ⟨m', rfl⟩ : ∃ m', m = m' + 1 := ⟨m - 1, by omega⟩
        obtain ⟨n', rfl⟩ : ∃ n', n = n' + 1 := ⟨n - 1, by omega⟩
        rw [List.take_succ_cons, List.take_succ_cons,
          mergeRank_cons_cons a b (List.take m' A') (List.take n' B'),
          mergeRank_cons_cons a b A' B']
        by_cases h : rankLE a b = true
        · rw [if_pos h, if_pos h, List.take_succ_cons, List.take_succ_cons]
          congr 1
          have := ih m' (n' + 1) A' (b :: B') (by omega) (by omega)
          rw [List.take_succ_cons] at this
          exact this
        · rw [if_neg h, if_neg h, List.take_succ_cons, List.take_succ_cons]
          congr 1
          have := ih (m' + 1) n' (a :: A') B' (by omega) (by omega)
          rw [List.take_succ_cons] at this
          exact this

end MergeLemmas

section OrchestratorLemmas

lemma scoredMatches_append (σ : StringMatchCandidate → Option (ℚ × List Nat))
    (as bs : List StringMatchCandidate) :
    scoredMatches σ (as ++ bs) = scoredMatches σ as ++ scoredMatches σ bs := by
  unfold scoredMatches
  rw [List.filterMap_append]

lemma scoredMatches_good (σ : StringMatchCandidate → Option (ℚ × List Nat))
    (cs : List StringMatchCandidate) :
    ∀ m ∈ scoredMatches σ cs, goodM m := by
  intro m hm
  unfold scoredMatches at hm
  obtain ⟨c, _, hc⟩ := List.mem_filterMap.mp hm
  obtain ⟨r, _, rfl⟩ := Option.map_eq_some'.mp hc
  exact ⟨r.1, rfl⟩

lemma insertRank_ne_nil (x : StringMatch) (l : List StringMatch) :
    insertRank x l ≠ [] := by
  cases l with
  | nil => simp [insertRank_nil]
  | cons y ys =>
    rw [insertRank_cons]
    split_ifs <;> simp

lemma sortRank_eq_nil {l : List StringMatch} : sortRank l = [] ↔ l = [] := by
  cases l with
  | nil => simp [sortRank]
  | cons x l =>
    refine iff_of_false ?_ (by simp)
    show insertRank x (sortRank l) ≠ []
    exact insertRank_ne_nil _ _

lemma foldl_extend_scorer (σ : StringMatchCandidate → Option (ℚ × List Nat))
    (k : Nat) (hk : 0 < k) :
    ∀ (segs : List (List StringMatchCandidate)) (P : List StringMatchCandidate),
      (segs.map (scorerRun σ k)).foldl
        (fun results seg => if results.isEmpty then seg else extend_sorted results seg k)
        (scorerRun σ k P)
      = scorerRun σ k (P ++ segs.flatten) := by
  intro segs
  induction segs with
  | nil =>
    intro P
    rw [List.map_nil, List.foldl_nil, List.flatten_nil, List.append_nil]
  | cons s rest ih =>
    intro P
    rw [List.map_cons, List.foldl_cons]
    have hstep : (if (scorerRun σ k P).isEmpty then scorerRun σ k s
        else extend_sorted (scorerRun σ k P) (scorerRun σ k s) k) = scorerRun σ k (P ++ s) := by
      by_cases hemp : (scorerRun σ k P).isEmpty
      · rw [if_pos hemp]
        have hnil : scorerRun σ k P = [] := List.isEmpty_iff.mp hemp
        unfold scorerRun at hnil
        have h1 : sortRank (scoredMatches σ P) = [] := by
          rcases List.take_eq_nil_iff.mp hnil with h | h
          · omega
          · exact h
        have h2 : scoredMatches σ P = [] := sortRank_eq_nil.mp h1
        unfold scorerRun
        rw [scoredMatches_append, h2, List.nil_append]
      · rw [if_neg hemp]
        unfold extend_sorted scorerRun
        rw [take_mergeRank_take k k k _ _ le_rfl le_rfl]
        rw [← sortRank_append _ _ (scoredMatches_good σ P) (scoredMatches_good σ s)]
        rw [← scoredMatches_append]
    rw [hstep, ih (P ++ s), List.flatten_cons, List.append_assoc]

lemma shardSegment_eq (cs : List StringMatchCandidate) (size i : Nat) :
    shardSegment cs size i = (cs.drop (i * size)).take size := by
  simp only [shardSegment]
  by_cases h : i * size ≤ cs.length
  · rw [min_eq_left h, List.take_eq_take]
    simp only [List.length_drop]
    omega
  · push_neg at h
    rw [min_eq_right (by omega : cs.length ≤ i * size),
      min_eq_right (by omega : cs.length ≤ cs.length + size),
      Nat.sub_self, List.take_zero,
      List.drop_eq_nil_of_le (by omega : cs.length ≤ i * size), List.take_nil]

lemma shardSegment_length (cs : List StringMatchCandidate) (size i : Nat) :
    (shardSegment cs size i).length ≤ size := by
  rw [shardSegment_eq, List.length_take]
  exact min_le_left _ _

lemma join_chunks (l : List StringMatchCandidate) (size : Nat) :
    ∀ (n off : Nat),
      ((List.range n).map (fun i => (l.drop (off + i * size)).take size)).flatten
        = (l.drop off).take (n * size) := by
  intro n
  induction n with
  | zero =>
    intro off
    rw [List.range_zero, List.map_nil, List.flatten_nil, Nat.zero_mul, List.take_zero]
  | succ n ih =>
    intro off
    rw [List.range_succ_eq_map, List.map_cons, List.flatten_cons, List.map_map]
    have hcomp : ((fun i => (l.drop (off + i * size)).take size) ∘ Nat.succ)
        = fun i => (l.drop (off + size + i * size)).take size := by
      funext i
      show (l.drop (off + Nat.succ i * size)).take size = (l.drop (off + size + i * size)).take size
      congr 2
      rw [Nat.succ_mul]
      omega
    rw [hcomp, ih (off + size)]
    rw [Nat.zero_mul, Nat.add_zero]
    rw [show (n + 1) * size = size + n * size from by ring]
    rw [List.take_add, List.drop_drop]

lemma join_shardSegments (cs : List StringMatchCandidate) (n size : Nat)
    (hge : cs.length ≤ n * size) :
    ((List.range n).map (fun i => shardSegment cs size i)).flatten = cs := by
  have hfun : (fun i => shardSegment cs size i)
      = fun i => (cs.drop (0 + i * size)).take size := by
    funext i
    rw [shardSegment_eq, Nat.zero_add]
  rw [hfun, join_chunks cs size n 0, List.drop_zero, List.take_of_length_le hge]

lemma length_le_shards (len w : Nat) (hw : 1 ≤ w) (hlen : 1 ≤ len) :
    len ≤ shardCount w len * shardSize len (shardCount w len) := by
  have hn : 1 ≤ shardCount w len := by
    unfold shardCount
    omega
  set n := shardCount w len with hd
  show len ≤ n * shardSize len n
  unfold shardSize
  have hdm := Nat.div_add_mod (len + n - 1) n
  have hmod : (len + n - 1) % n < n := Nat.mod_lt _ (by omega)
  obtain ⟨q, hq⟩ : ∃ q, n * ((len + n - 1) / n) = q := ⟨_, rfl⟩
  obtain ⟨r, hr⟩ : ∃ r, (len + n - 1) % n = r := ⟨_, rfl⟩
  rw [hq]
  rw [hq, hr] at hdm
  rw [hr] at hmod
  omega

end OrchestratorLemmas

lemma match_strings_eq_scorerRun (σ : StringMatchCandidate → Option (ℚ × List Nat))
    (cs : List StringMatchCandidate) (q : List Char) (k nc : Nat)
    (hcs : cs ≠ []) (hk : 0 < k) (hq : q ≠ []) (hnc : 1 ≤ nc) :
    match_strings σ cs q k nc = scorerRun σ k cs := by
  have hcond : ¬(cs = [] ∨ k = 0) := by
    rintro (h | h)
    · exact hcs h
    · omega
  unfold match_strings
  rw [if_neg hcond, if_neg hq]
  have hlen : 1 ≤ cs.length := List.length_pos.mpr hcs
  have hmap : (List.range (shardCount nc cs.length)).map
      (fun i => scorerRun σ k (shardSegment cs (shardSize cs.length (shardCount nc cs.length)) i))
      = ((List.range (shardCount nc cs.length)).map
          (fun i => shardSegment cs (shardSize cs.length (shardCount nc cs.length)) i)).map
          (scorerRun σ k) := by
    rw [List.map_map]
    rfl
  rw [hmap]
  have hinit : ([] : List StringMatch) = scorerRun σ k [] := by
    unfold scorerRun
    rw [show scoredMatches σ [] = [] from rfl, show sortRank [] = [] from rfl, List.take_nil]
  rw [hinit, foldl_extend_scorer σ k hk _ [], List.nil_append,
    join_shardSegments cs _ _ (length_le_shards cs.length nc hnc hlen)]

/-- C1: on a non-empty query, a positive result cap and at least one worker,
the parallel entry point returns exactly the result sequence of the
synchronous entry point — same ids in the same order — for every candidate
set, every deterministic scorer and every shard count the parallel path may
choose (the shard count is whatever `min numCpus candidates.length` yields). -/
theorem C1_parallel_equals_synchronous (σ : StringMatchCandidate → Option (ℚ × List Nat))
    (cs : List StringMatchCandidate) (q : List Char) (k nc : Nat)
    (hq : q ≠ []) (hk : 0 < k) (hnc : 1 ≤ nc) :
    match_strings σ cs q k nc = match_strings_synchronously σ cs q k := by
  by_cases hcs : cs = []
  · subst hcs
    unfold match_strings match_strings_synchronously
    rw [if_pos (Or.inl rfl), if_pos (Or.inl rfl)]
  · rw [match_strings_eq_scorerRun σ cs q k nc hcs hk hq hnc]
    unfold match_strings_synchronously
    rw [if_neg (by
        rintro (h | h)
        · exact hcs h
        · omega), if_neg hq]

/-- Witness for `C1_parallel_equals_synchronous`: three candidates scored by
their id, query `"a"`, cap `1`, two workers. -/
theorem C1_parallel_equals_synchronous_witness :
    ((['a'] : List Char) ≠ [] ∧ (0 : Nat) < 1 ∧ (1 : Nat) ≤ 2) ∧
    match_strings (fun c => some ((c.id : ℚ), []))
        [⟨2, ['a']⟩, ⟨0, ['b']⟩, ⟨1, ['a']⟩] ['a'] 1 2
      = match_strings_synchronously (fun c => some ((c.id : ℚ), []))
        [⟨2, ['a']⟩, ⟨0, ['b']⟩, ⟨1, ['a']⟩] ['a'] 1 :=
  ⟨⟨by decide, by decide, by decide⟩,
    C1_parallel_equals_synchronous (fun c => some ((c.id : ℚ), []))
      [⟨2, ['a']⟩, ⟨0, ['b']⟩, ⟨1, ['a']⟩] ['a'] 1 2
      (by decide) (by decide) (by decide)⟩

lemma match_strings_sorted_capped (σ : StringMatchCandidate → Option (ℚ × List Nat))
    (cs : List StringMatchCandidate) (q : List Char) (k nc : Nat) (hq : q ≠ []) :
    (match_strings σ cs q k nc).length ≤ k ∧
    (match_strings σ cs q k nc).Pairwise (fun a b => ∃ qa qb,
      a.score = some qa ∧ b.score = some qb ∧
      (qb < qa ∨ (qa = qb ∧ a.candidate_id ≤ b.candidate_id))) := by
  by_cases hdeg : cs = [] ∨ k = 0
  · unfold match_strings
    rw [if_pos hdeg]
    exact ⟨Nat.zero_le _, List.Pairwise.nil⟩
  · push_neg at hdeg
    obtain ⟨hcs, hk0⟩ := hdeg
    have hk : 0 < k := Nat.pos_of_ne_zero hk0
    by_cases hnc : 1 ≤ nc
    · rw [match_strings_eq_scorerRun σ cs q k nc hcs hk hq hnc]
      unfold scorerRun
      constructor
      · exact List.length_take_le _ _
      · have hgood := scoredMatches_good σ cs
        have hp := pairwise_sortRank hgood
        have hp2 : ((sortRank (scoredMatches σ cs)).take k).Pairwise
            (fun a b => rankLE a b = true) :=
          List.Pairwise.sublist (List.take_sublist _ _) hp
        refine hp2.imp_of_mem ?_
        intro a b ha hb hr
        obtain ⟨qa, hqa⟩ := hgood a (mem_sortRank.mp (List.mem_of_mem_take ha))
        obtain ⟨qb, hqb⟩ := hgood b (mem_sortRank.mp (List.mem_of_mem_take hb))
        exact ⟨qa, qb, hqa, hqb, (rankLE_some hqa hqb).mp hr⟩
    · have hres : match_strings σ cs q k nc = [] := by
        unfold match_strings
        rw [if_neg (by
            rintro (h | h)
            · exact hcs h
            · omega), if_neg hq]
        rw [show shardCount nc cs.length = 0 from by unfold shardCount; omega]
        rw [List.range_zero, List.map_nil, List.foldl_nil]
      rw [hres]
      exact ⟨Nat.zero_le _, List.Pairwise.nil⟩

/-- C4: with a non-empty query (and the Scorer contract, which the
spec-modelled `scorerRun` satisfies by construction: per-shard lists of
length at most `max_results`, ordered per §4.5), the parallel entry point
returns at most `max_results` results, sorted descending by score with ties
broken by ascending `candidate_id`. -/
theorem C4_merged_output_capped_and_sorted
    (σ : StringMatchCandidate → Option (ℚ × List Nat))
    (cs : List StringMatchCandidate) (q : List Char) (k nc : Nat) (hq : q ≠ []) :
    (match_strings σ cs q k nc).length ≤ k ∧
    (match_strings σ cs q k nc).Pairwise (fun a b => ∃ qa qb,
      a.score = some qa ∧ b.score = some qb ∧
      (qb < qa ∨ (qa = qb ∧ a.candidate_id ≤ b.candidate_id))) :=
  match_strings_sorted_capped σ cs q k nc hq

/-- Witness for `C4_merged_output_capped_and_sorted`: three candidates
scored by their id, cap `2`, two workers. -/
theorem C4_merged_output_capped_and_sorted_witness :
    ((['a'] : List Char) ≠ []) ∧
    ((match_strings (fun c => some ((c.id : ℚ), []))
        [⟨2, ['a']⟩, ⟨0, ['b']⟩, ⟨1, ['a']⟩] ['a'] 2 2).length ≤ 2 ∧
     (match_strings (fun c => some ((c.id : ℚ), []))
        [⟨2, ['a']⟩, ⟨0, ['b']⟩, ⟨1, ['a']⟩] ['a'] 2 2).Pairwise (fun a b => ∃ qa qb,
        a.score = some qa ∧ b.score = some qb ∧
        (qb < qa ∨ (qa = qb ∧ a.candidate_id ≤ b.candidate_id)))) :=
  ⟨by decide,
    C4_merged_output_capped_and_sorted (fun c => some ((c.id : ℚ), []))
      [⟨2, ['a']⟩, ⟨0, ['b']⟩, ⟨1, ['a']⟩] ['a'] 2 2 (by decide)⟩

/-- C2: in the final sequence the parallel entry point's merge step
produces, any two results with equal score appear with the smaller
`candidate_id` first, regardless of which shard each came from (the result
is pairwise ordered, so this holds for every pair, not just neighbours). -/
theorem C2_merge_tie_break (σ : StringMatchCandidate → Option (ℚ × List Nat))
    (cs : List StringMatchCandidate) (q : List Char) (k nc : Nat) (hq : q ≠ []) :
    (match_strings σ cs q k nc).Pairwise
      (fun a b => a.score = b.score → a.candidate_id ≤ b.candidate_id) := by
  refine ((match_strings_sorted_capped σ cs q k nc hq).2).imp ?_
  intro a b h hs
  obtain ⟨qa, qb, hqa, hqb, hor⟩ := h
  rw [hqa, hqb] at hs
  injection hs with hs
  rcases hor with h' | ⟨h', h''⟩
  · subst hs
    exact absurd h' (lt_irrefl _)
  · exact h''

/-- Witness for `C2_merge_tie_break`: two candidates with tied scores land
in different shards; the merged output is tie-ordered by id. -/
theorem C2_merge_tie_break_witness :
    ((['a'] : List Char) ≠ []) ∧
    (match_strings (fun _ => some ((1 : ℚ), []))
        [⟨7, ['a']⟩, ⟨3, ['b']⟩] ['a'] 2 2).Pairwise
      (fun a b => a.score = b.score → a.candidate_id ≤ b.candidate_id) :=
  ⟨by decide,
    C2_merge_tie_break (fun _ => some ((1 : ℚ), [])) [⟨7, ['a']⟩, ⟨3, ['b']⟩]
      ['a'] 2 2 (by decide)⟩

/-- C8 counterexample: with 5 candidates and 4 available workers the code
computes `shard_count = 4` and `shard_size = ceil(5/4) = 2`, but then shard
index 3 starts at `min(3*2, 5) = 5` and is empty — a task does process zero
candidates, refuting the claim's final clause. -/
theorem C8_counterexample :
    shardCount 4 5 = 4 ∧ shardSize 5 4 = 2 ∧
    shardSegment [⟨0, []⟩, ⟨1, []⟩, ⟨2, []⟩, ⟨3, []⟩, ⟨4, []⟩] (shardSize 5 4) 3 = [] := by
  decide

/-- C8 amended: for a non-empty candidate set and at least one worker, the
parallel orchestrator computes `shard_count = min(workers, candidate_count)`
and `shard_size = ceil(candidate_count / shard_count)`, and partitions the
candidates into `shard_count` contiguous, non-overlapping, order-preserving
segments (their concatenation is exactly the candidate list) of at most
`shard_size` candidates each, never indexing past the end of the slice;
trailing segments may however be empty when `i * shard_size` already
reaches the candidate count, so a task may process zero candidates. -/
theorem C8_sharding_partition (cs : List StringMatchCandidate) (w : Nat)
    (hcs : cs ≠ []) (hw : 1 ≤ w) :
    shardCount w cs.length = min w cs.length ∧
    shardSize cs.length (shardCount w cs.length) =
      (cs.length + shardCount w cs.length - 1) / shardCount w cs.length ∧
    ((List.range (shardCount w cs.length)).map
      (fun i => shardSegment cs (shardSize cs.length (shardCount w cs.length)) i)).flatten = cs ∧
    ∀ i, (shardSegment cs (shardSize cs.length (shardCount w cs.length)) i).length
      ≤ shardSize cs.length (shardCount w cs.length) := by
  refine ⟨rfl, rfl, ?_, fun i => shardSegment_length cs _ i⟩
  exact join_shardSegments cs _ _
    (length_le_shards cs.length w hw (List.length_pos.mpr hcs))

/-- Witness for `C8_sharding_partition`: 5 candidates, 4 workers. -/
theorem C8_sharding_partition_witness :
    (([⟨0, []⟩, ⟨1, []⟩, ⟨2, []⟩, ⟨3, []⟩, ⟨4, []⟩] : List StringMatchCandidate) ≠ [] ∧
      (1 : Nat) ≤ 4) ∧
    ((List.range (shardCount 4 (5 : Nat))).map
      (fun i => shardSegment [⟨0, []⟩, ⟨1, []⟩, ⟨2, []⟩, ⟨3, []⟩, ⟨4, []⟩]
        (shardSize 5 (shardCount 4 5)) i)).flatten
      = [⟨0, []⟩, ⟨1, []⟩, ⟨2, []⟩, ⟨3, []⟩, ⟨4, []⟩] :=
  ⟨⟨by decide, by decide⟩,
    (C8_sharding_partition [⟨0, []⟩, ⟨1, []⟩, ⟨2, []⟩, ⟨3, []⟩, ⟨4, []⟩] 4
      (by decide) (by decide)).2.2.1⟩
